import Mathlib

/-!
Shallow embedding of `src/sorting.py` (comparison-based merge sort and
quicksort drivers parameterized by a three-way comparator), together with
proofs of the specification's claims about it.

Python lists of values are modelled as `List α`; machine-level aliasing is
irrelevant here because every function under verification either only reads
its arguments or (for the spec-modelled in-place quicksort) is modelled as a
function from the initial contents of the caller's list to its final
contents.  Code paths on which the Python program would diverge or raise
(a comparator returning a value outside {-1, 0, 1} makes the `while` loop of
`_merged` spin forever, and `quick_sorted` falls off the end of the function
returning `None` for an unrecognized comparator) are modelled with `Option`:
`none` stands for "no list is returned".
-/

namespace Sorting

/-- A valid three-way comparator in the sense of the module docstring of
`src/sorting.py` and §3 of the spec: every value is one of -1, 0, 1;
swapping the arguments negates the result (antisymmetry); and the induced
relation `c a b ≤ 0` ("a sorts no later than b") is transitive.  Together
these make `fun a b => c a b ≤ 0` a total preorder. -/
structure ValidCmp {α : Type} (c : α → α → Int) : Prop where
  range : ∀ a b, c a b = -1 ∨ c a b = 0 ∨ c a b = 1
  antisymm : ∀ a b, c b a = - c a b
  trans : ∀ a b d, c a b ≤ 0 → c b d ≤ 0 → c a d ≤ 0

theorem ValidCmp.le_of_eq_one {α : Type} {c : α → α → Int} (hv : ValidCmp c)
    {a b : α} (h : c a b = 1) : c b a ≤ 0 := by
  have := hv.antisymm a b
  omega

theorem ValidCmp.le_of_eq_zero {α : Type} {c : α → α → Int} (hv : ValidCmp c)
    {a b : α} (h : c a b = 0) : c b a ≤ 0 := by
  have := hv.antisymm a b
  omega

/-- Embedding of `cmp_standard` (src/sorting.py lines 18–31): -1 when
`a < b`, 1 when `b < a`, 0 otherwise. -/
def cmp_standard {α : Type} [LinearOrder α] (a b : α) : Int :=
  if a < b then -1 else if b < a then 1 else 0

/-- Embedding of `cmp_reverse` (src/sorting.py lines 34–47): 1 when
`a < b`, -1 when `b < a`, 0 otherwise. -/
def cmp_reverse {α : Type} [LinearOrder α] (a b : α) : Int :=
  if a < b then 1 else if b < a then -1 else 0

/-- Embedding of `cmp_last_digit` (src/sorting.py lines 50–59): compares the
last decimal digits.  Python's `%` on integers with a positive modulus
agrees with Lean's `Int.emod` (both return a result in `[0, 10)`). -/
def cmp_last_digit (a b : ℤ) : Int :=
  cmp_standard (a % 10) (b % 10)

theorem cmp_standard_of_lt {α : Type} [LinearOrder α] {a b : α} (h : a < b) :
    cmp_standard a b = -1 := by
  unfold cmp_standard
  rw [if_pos h]

theorem cmp_standard_of_gt {α : Type} [LinearOrder α] {a b : α} (h : b < a) :
    cmp_standard a b = 1 := by
  unfold cmp_standard
  rw [if_neg (asymm h), if_pos h]

theorem cmp_standard_of_eq {α : Type} [LinearOrder α] (a : α) :
    cmp_standard a a = 0 := by
  unfold cmp_standard
  rw [if_neg (lt_irrefl a), if_neg (lt_irrefl a)]

theorem cmp_reverse_of_lt {α : Type} [LinearOrder α] {a b : α} (h : a < b) :
    cmp_reverse a b = 1 := by
  unfold cmp_reverse
  rw [if_pos h]

theorem cmp_reverse_of_gt {α : Type} [LinearOrder α] {a b : α} (h : b < a) :
    cmp_reverse a b = -1 := by
  unfold cmp_reverse
  rw [if_neg (asymm h), if_pos h]

theorem cmp_reverse_of_eq {α : Type} [LinearOrder α] (a : α) :
    cmp_reverse a a = 0 := by
  unfold cmp_reverse
  rw [if_neg (lt_irrefl a), if_neg (lt_irrefl a)]

/-- The result of `cmp_standard` is at most 0 exactly when `a ≤ b`. -/
theorem cmp_standard_le_iff {α : Type} [LinearOrder α] {a b : α} :
    cmp_standard a b ≤ 0 ↔ a ≤ b := by
  rcases lt_trichotomy a b with h | rfl | h
  · rw [cmp_standard_of_lt h]
    exact iff_of_true (by norm_num) h.le
  · rw [cmp_standard_of_eq a]
    exact iff_of_true le_rfl le_rfl
  · rw [cmp_standard_of_gt h]
    exact iff_of_false (by norm_num) (not_le_of_lt h)

/-- The result of `cmp_reverse` is at most 0 exactly when `b ≤ a`. -/
theorem cmp_reverse_le_iff {α : Type} [LinearOrder α] {a b : α} :
    cmp_reverse a b ≤ 0 ↔ b ≤ a := by
  rcases lt_trichotomy a b with h | rfl | h
  · rw [cmp_reverse_of_lt h]
    exact iff_of_false (by norm_num) (not_le_of_lt h)
  · rw [cmp_reverse_of_eq a]
    exact iff_of_true le_rfl le_rfl
  · rw [cmp_reverse_of_gt h]
    exact iff_of_true (by norm_num) h.le

theorem cmp_standard_valid {α : Type} [LinearOrder α] :
    ValidCmp (α := α) cmp_standard where
  range a b := by
    rcases lt_trichotomy a b with h | rfl | h
    · rw [cmp_standard_of_lt h]; left; rfl
    · rw [cmp_standard_of_eq a]; right; left; rfl
    · rw [cmp_standard_of_gt h]; right; right; rfl
  antisymm a b := by
    rcases lt_trichotomy a b with h | rfl | h
    · rw [cmp_standard_of_lt h, cmp_standard_of_gt h]; norm_num
    · rw [cmp_standard_of_eq a]; decide
    · rw [cmp_standard_of_gt h, cmp_standard_of_lt h]
  trans a b d hab hbd := by
    rw [cmp_standard_le_iff] at hab hbd ⊢
    exact le_trans hab hbd

theorem cmp_reverse_valid {α : Type} [LinearOrder α] :
    ValidCmp (α := α) cmp_reverse where
  range a b := by
    rcases lt_trichotomy a b with h | rfl | h
    · rw [cmp_reverse_of_lt h]; right; right; rfl
    · rw [cmp_reverse_of_eq a]; right; left; rfl
    · rw [cmp_reverse_of_gt h]; left; rfl
  antisymm a b := by
    rcases lt_trichotomy a b with h | rfl | h
    · rw [cmp_reverse_of_lt h, cmp_reverse_of_gt h]
    · rw [cmp_reverse_of_eq a]; decide
    · rw [cmp_reverse_of_gt h, cmp_reverse_of_lt h]; decide
  trans a b d hab hbd := by
    rw [cmp_reverse_le_iff] at hab hbd ⊢
    exact le_trans hbd hab

/-- Embedding of the loop section of `_merged` (src/sorting.py lines
88–110).  State `(i, j)` of the Python `while` loops is replaced by the
suffixes of the two input lists that remain to be consumed; appending to
`merged_list` becomes consing onto the recursive result.  The three `if`
statements of the loop body test the one saved value `compare = cmp(xs[i],
ys[j])` against -1, 1 and 0, so at most one of them fires; if `compare` is
outside {-1, 0, 1}, none fires, neither cursor advances and the Python loop
never terminates — that divergence is modelled as `none`.  The two trailing
`while` loops that copy the unconsumed remainder correspond to the first
two equations. -/
def _merged {α : Type} (c : α → α → Int) : List α → List α → Option (List α)
  | [], ys => some ys
  | x :: xs, [] => some (x :: xs)
  | x :: xs, y :: ys =>
    let compare := c x y
    if compare = -1 then (_merged c xs (y :: ys)).map (fun r => x :: r)
    else if compare = 1 then (_merged c (x :: xs) ys).map (fun r => y :: r)
    else if compare = 0 then (_merged c xs ys).map (fun r => x :: y :: r)
    else none
termination_by xs ys => xs.length + ys.length

/-- Caller's view of one call `_merged(xs, ys, cmp)`: the returned value
together with the contents of the two argument lists after the call.  Every
statement of the Python body reads `xs` and `ys` (indexing and `len`) and
writes only the locals `merged_list`, `i`, `j`, so the final contents of
`xs` and `ys` are their initial contents. -/
def _merged_call {α : Type} (xs ys : List α) (c : α → α → Int) :
    Option (List α) × List α × List α :=
  (_merged c xs ys, xs, ys)

/-- Embedding of `merge_sorted` (src/sorting.py lines 113–138).  The body
first binds `copy = deepcopy(xs)`; values are immutable in the embedding,
so the deep copy has the same contents `xs`.  `copy[:mid]` is `take mid`
and `copy[mid:]` is `drop mid`.  A `none` from a recursive call or from
`_merged` (divergence of the merge loop) propagates. -/
def merge_sorted {α : Type} (c : α → α → Int) (xs : List α) : Option (List α) :=
  if xs.length ≤ 1 then some xs
  else
    match merge_sorted c (xs.take (xs.length / 2)),
          merge_sorted c (xs.drop (xs.length / 2)) with
    | some s1, some s2 => _merged c s1 s2
    | _, _ => none
termination_by xs.length
decreasing_by
  · simp only [List.length_take]
    omega
  · simp only [List.length_drop]
    omega

theorem _merged_nil_left {α : Type} (c : α → α → Int) (ys : List α) :
    _merged c [] ys = some ys := by
  rw [_merged]

theorem _merged_cons_nil {α : Type} (c : α → α → Int) (x : α) (xs : List α) :
    _merged c (x :: xs) [] = some (x :: xs) := by
  rw [_merged]

theorem _merged_nil_right {α : Type} (c : α → α → Int) (xs : List α) :
    _merged c xs [] = some xs := by
  cases xs with
  | nil => rw [_merged]
  | cons x xs => rw [_merged]

theorem _merged_cons_cons {α : Type} (c : α → α → Int) (x y : α) (xs ys : List α) :
    _merged c (x :: xs) (y :: ys) =
      if c x y = -1 then (_merged c xs (y :: ys)).map (fun r => x :: r)
      else if c x y = 1 then (_merged c (x :: xs) ys).map (fun r => y :: r)
      else if c x y = 0 then (_merged c xs ys).map (fun r => x :: y :: r)
      else none := by
  rw [_merged]

theorem _merged_of_lt {α : Type} {c : α → α → Int} {x y : α} (xs ys : List α)
    (h : c x y = -1) :
    _merged c (x :: xs) (y :: ys) = (_merged c xs (y :: ys)).map (fun r => x :: r) := by
  rw [_merged_cons_cons, h]
  norm_num

theorem _merged_of_gt {α : Type} {c : α → α → Int} {x y : α} (xs ys : List α)
    (h : c x y = 1) :
    _merged c (x :: xs) (y :: ys) = (_merged c (x :: xs) ys).map (fun r => y :: r) := by
  rw [_merged_cons_cons, h]
  norm_num

theorem _merged_of_tie {α : Type} {c : α → α → Int} {x y : α} (xs ys : List α)
    (h : c x y = 0) :
    _merged c (x :: xs) (y :: ys) = (_merged c xs ys).map (fun r => x :: y :: r) := by
  rw [_merged_cons_cons, h]
  norm_num

/-- Main inductive specification of the merge loop: on sorted inputs and a
valid comparator it succeeds, returns a permutation of the concatenation,
the result is sorted, and the head of the result is the head of one of the
inputs (the strengthening that makes the induction go through). -/
theorem _merged_spec {α : Type} {c : α → α → Int} (hv : ValidCmp c) :
    ∀ (n : ℕ) (xs ys : List α), xs.length + ys.length ≤ n →
      List.Chain' (fun a b => c a b ≤ 0) xs →
      List.Chain' (fun a b => c a b ≤ 0) ys →
      ∃ zs, _merged c xs ys = some zs ∧ zs.Perm (xs ++ ys) ∧
        List.Chain' (fun a b => c a b ≤ 0) zs ∧
        (∀ z, zs.head? = some z → xs.head? = some z ∨ ys.head? = some z) := by
  intro n
  induction n with
  | zero =>
    intro xs ys hlen _ _
    match xs, ys with
    | [], [] =>
      exact ⟨[], _merged_nil_left c [], by simp, List.chain'_nil, by simp⟩
    | x :: xs, _ => simp at hlen
    | [], y :: ys => simp at hlen
  | succ n ih =>
    intro xs ys hlen hxs hys
    match xs, ys with
    | [], ys =>
      refine ⟨ys, _merged_nil_left c ys, by simp, hys, fun z hz => Or.inr hz⟩
    | x :: xs, [] =>
      refine ⟨x :: xs, _merged_cons_nil c x xs, by simp, hxs, fun z hz => Or.inl hz⟩
    | x :: xs, y :: ys =>
      rcases hv.range x y with h | h | h
      · -- cmp(xs[i], ys[j]) == -1 : take the head of the first list
        obtain ⟨zs, hm, hperm, hchain, hhead⟩ :=
          ih xs (y :: ys) (by simp at hlen ⊢; omega) hxs.tail hys
        refine ⟨x :: zs, ?_, ?_, ?_, ?_⟩
        · rw [_merged_of_lt xs ys h, hm]
          rfl
        · exact hperm.cons x
        · rw [List.chain'_cons']
          refine ⟨?_, hchain⟩
          intro z hz
          rcases hhead z (Option.mem_def.mp hz) with h1 | h1
          · exact (List.chain'_cons'.mp hxs).1 z (Option.mem_def.mpr h1)
          · rw [List.head?_cons, Option.some.injEq] at h1
            rw [← h1]
            omega
        · intro z hz
          rw [List.head?_cons, Option.some.injEq] at hz
          exact Or.inl (by rw [List.head?_cons, hz])
      · -- cmp(xs[i], ys[j]) == 0 : take both heads, first list first
        obtain ⟨zs, hm, hperm, hchain, hhead⟩ :=
          ih xs ys (by simp at hlen ⊢; omega) hxs.tail hys.tail
        refine ⟨x :: y :: zs, ?_, ?_, ?_, ?_⟩
        · rw [_merged_of_tie xs ys h, hm]
          rfl
        · -- x :: y :: zs ~ (x :: xs) ++ (y :: ys)
          refine List.Perm.cons x ?_
          exact ((hperm.cons y).trans List.perm_middle.symm)
        · rw [List.chain'_cons']
          refine ⟨?_, ?_⟩
          · intro z hz
            simp only [List.head?_cons, Option.mem_def, Option.some.injEq] at hz
            rw [← hz]
            omega
          · rw [List.chain'_cons']
            refine ⟨?_, hchain⟩
            intro z hz
            rcases hhead z (Option.mem_def.mp hz) with h1 | h1
            · have hxz : c x z ≤ 0 := (List.chain'_cons'.mp hxs).1 z (Option.mem_def.mpr h1)
              exact hv.trans y x z (hv.le_of_eq_zero h) hxz
            · exact (List.chain'_cons'.mp hys).1 z (Option.mem_def.mpr h1)
        · intro z hz
          rw [List.head?_cons, Option.some.injEq] at hz
          exact Or.inl (by rw [List.head?_cons, hz])
      · -- cmp(xs[i], ys[j]) == 1 : take the head of the second list
        obtain ⟨zs, hm, hperm, hchain, hhead⟩ :=
          ih (x :: xs) ys (by simp at hlen ⊢; omega) hxs hys.tail
        refine ⟨y :: zs, ?_, ?_, ?_, ?_⟩
        · rw [_merged_of_gt xs ys h, hm]
          rfl
        · exact (hperm.cons y).trans List.perm_middle.symm
        · rw [List.chain'_cons']
          refine ⟨?_, hchain⟩
          intro z hz
          rcases hhead z (Option.mem_def.mp hz) with h1 | h1
          · rw [List.head?_cons, Option.some.injEq] at h1
            rw [← h1]
            exact hv.le_of_eq_one h
          · exact (List.chain'_cons'.mp hys).1 z (Option.mem_def.mpr h1)
        · intro z hz
          rw [List.head?_cons, Option.some.injEq] at hz
          exact Or.inr (by rw [List.head?_cons, hz])

/-- Closed-form corollary of `_merged_spec`. -/
theorem _merged_correct {α : Type} {c : α → α → Int} (hv : ValidCmp c)
    {xs ys : List α}
    (hxs : List.Chain' (fun a b => c a b ≤ 0) xs)
    (hys : List.Chain' (fun a b => c a b ≤ 0) ys) :
    ∃ zs, _merged c xs ys = some zs ∧ zs.Perm (xs ++ ys) ∧
      List.Chain' (fun a b => c a b ≤ 0) zs := by
  obtain ⟨zs, hm, hperm, hchain, _⟩ :=
    _merged_spec hv (xs.length + ys.length) xs ys le_rfl hxs hys
  exact ⟨zs, hm, hperm, hchain⟩

/-- For a comparator into {-1, 0, 1}, "every adjacent comparison is -1 or
0" is the same as "every adjacent comparison is at most 0". -/
theorem chain'_le_iff_chain'_mem {α : Type} {c : α → α → Int} (hv : ValidCmp c)
    (l : List α) :
    List.Chain' (fun a b => c a b ≤ 0) l ↔
      List.Chain' (fun a b => c a b = -1 ∨ c a b = 0) l := by
  constructor
  · intro h
    refine h.imp ?_
    intro a b hab
    rcases hv.range a b with h1 | h1 | h1 <;> omega
  · intro h
    refine h.imp ?_
    intro a b hab
    omega

/-- Caller's view of one call `merge_sorted(xs, cmp)`: the returned value
together with the contents of `xs` after the call.  The body copies `xs`
into the local `copy` on its first line and thereafter touches only `copy`
and other locals, so the final contents of `xs` are its initial contents. -/
def merge_sorted_call {α : Type} (c : α → α → Int) (xs : List α) :
    Option (List α) × List α :=
  (merge_sorted c xs, xs)

/-- Main specification of `merge_sorted`: with a valid comparator it always
returns a list, and that list is a sorted permutation of the input. -/
theorem merge_sorted_spec {α : Type} {c : α → α → Int} (hv : ValidCmp c) :
    ∀ (n : ℕ) (xs : List α), xs.length ≤ n →
      ∃ out, merge_sorted c xs = some out ∧ out.Perm xs ∧
        List.Chain' (fun a b => c a b ≤ 0) out := by
  intro n
  induction n with
  | zero =>
    intro xs hlen
    have hnil : xs = [] := List.length_eq_zero.mp (Nat.le_zero.mp hlen)
    subst hnil
    refine ⟨[], ?_, List.Perm.refl [], List.chain'_nil⟩
    rw [merge_sorted]
    norm_num
  | succ n ih =>
    intro xs hlen
    by_cases h1 : xs.length ≤ 1
    · refine ⟨xs, ?_, List.Perm.refl xs, ?_⟩
      · rw [merge_sorted, if_pos h1]
      · rcases xs with _ | ⟨x, _ | ⟨y, t⟩⟩
        · exact List.chain'_nil
        · exact List.chain'_singleton x
        · simp at h1
    · obtain ⟨s1, e1, p1, c1⟩ :=
        ih (xs.take (xs.length / 2)) (by rw [List.length_take]; omega)
      obtain ⟨s2, e2, p2, c2⟩ :=
        ih (xs.drop (xs.length / 2)) (by rw [List.length_drop]; omega)
      obtain ⟨zs, em, pm, cm⟩ := _merged_correct hv c1 c2
      refine ⟨zs, ?_, ?_, cm⟩
      · rw [merge_sorted, if_neg h1, e1, e2]
        exact em
      · exact pm.trans ((p1.append p2).trans
          (List.Perm.of_eq (List.take_append_drop (xs.length / 2) xs)))

/-- C1: for every list `xs` and every valid comparator `c`,
`merge_sorted(xs, c)` returns a list that is a permutation of `xs` (same
multiset of elements) and is sorted per `c`: for every adjacent pair of the
output, the comparator returns -1 or 0. -/
theorem c1_merge_sorted_sorts {α : Type} {c : α → α → Int} (hv : ValidCmp c)
    (xs : List α) :
    ∃ out, merge_sorted c xs = some out ∧ out.Perm xs ∧
      List.Chain' (fun a b => c a b = -1 ∨ c a b = 0) out := by
  obtain ⟨out, e, p, ch⟩ := merge_sorted_spec hv xs.length xs le_rfl
  exact ⟨out, e, p, (chain'_le_iff_chain'_mem hv out).mp ch⟩

theorem c1_witness :
    ∃ out, merge_sorted cmp_standard ([3, 1, 2] : List ℤ) = some out ∧
      out.Perm [3, 1, 2] ∧
      List.Chain' (fun a b => cmp_standard a b = -1 ∨ cmp_standard a b = 0) out :=
  c1_merge_sorted_sorts cmp_standard_valid [3, 1, 2]

/-- C3: on two individually sorted inputs and a valid comparator, `_merged`
returns a list (leaving both arguments unchanged) that is the multiset
union of the inputs, sorted per `c`, of length `len(xs) + len(ys)`. -/
theorem c3_merged_contract {α : Type} {c : α → α → Int} (hv : ValidCmp c)
    (xs ys : List α)
    (hxs : List.Chain' (fun a b => c a b = -1 ∨ c a b = 0) xs)
    (hys : List.Chain' (fun a b => c a b = -1 ∨ c a b = 0) ys) :
    ∃ zs, _merged_call xs ys c = (some zs, xs, ys) ∧
      zs.Perm (xs ++ ys) ∧
      List.Chain' (fun a b => c a b = -1 ∨ c a b = 0) zs ∧
      zs.length = xs.length + ys.length := by
  obtain ⟨zs, e, p, ch⟩ := _merged_correct hv
    ((chain'_le_iff_chain'_mem hv xs).mpr hxs)
    ((chain'_le_iff_chain'_mem hv ys).mpr hys)
  refine ⟨zs, ?_, p, (chain'_le_iff_chain'_mem hv zs).mp ch, ?_⟩
  · unfold _merged_call
    rw [e]
  · rw [p.length_eq, List.length_append]

theorem c3_witness :
    ∃ zs, _merged_call ([1, 3, 5] : List ℤ) [2, 4, 6] cmp_standard =
        (some zs, [1, 3, 5], [2, 4, 6]) ∧
      zs.Perm ([1, 3, 5] ++ [2, 4, 6]) ∧
      List.Chain' (fun a b => cmp_standard a b = -1 ∨ cmp_standard a b = 0) zs ∧
      zs.length = ([1, 3, 5] : List ℤ).length + ([2, 4, 6] : List ℤ).length :=
  c3_merged_contract cmp_standard_valid [1, 3, 5] [2, 4, 6]
    (by norm_num [List.chain'_cons, List.chain'_singleton, cmp_standard])
    (by norm_num [List.chain'_cons, List.chain'_singleton, cmp_standard])

/-- C5: when the comparator applied to the two current heads returns 0,
`_merged` appends both heads — the one from `xs` first — and advances both
cursors; and once one input is exhausted the remainder of the other is
appended unchanged, in its original order. -/
theorem c5_merged_tie_and_tail {α : Type} (c : α → α → Int) (x y : α)
    (xs ys : List α) (h : c x y = 0) :
    _merged c (x :: xs) (y :: ys) = (_merged c xs ys).map (fun r => x :: y :: r) ∧
    (∀ l : List α, _merged c l [] = some l) ∧
    (∀ l : List α, _merged c [] l = some l) :=
  ⟨_merged_of_tie xs ys h, fun l => _merged_nil_right c l,
    fun l => _merged_nil_left c l⟩

theorem c5_witness :
    _merged cmp_standard ([5, 7] : List ℤ) [5, 9] =
      (_merged cmp_standard [7] [9]).map (fun r => 5 :: 5 :: r) ∧
    _merged cmp_standard ([8] : List ℤ) [] = some [8] ∧
    _merged cmp_standard ([] : List ℤ) [6] = some [6] :=
  ⟨(c5_merged_tie_and_tail cmp_standard 5 5 [7] [9] (cmp_standard_of_eq 5)).1,
   (c5_merged_tie_and_tail cmp_standard 5 5 [7] [9] (cmp_standard_of_eq 5)).2.1 [8],
   (c5_merged_tie_and_tail cmp_standard 5 5 [7] [9] (cmp_standard_of_eq 5)).2.2 [6]⟩

/-- C6 as stated is false on the code: `cmp_last_digit(124, 322)` compares
the last digits 4 and 2, and `cmp_standard(4, 2) = 1`, not -1. -/
theorem c6_counterexample :
    ¬ (cmp_last_digit 125 322 = 1 ∧ cmp_last_digit 523 322 = 1 ∧
       cmp_last_digit 124 322 = -1) := by
  decide

/-- C6 amended: `cmp_last_digit(125, 322) = 1`, `cmp_last_digit(523, 322) =
1`, and `cmp_last_digit(124, 322) = 1` (last digits 4 vs 2). -/
theorem c6_amended_values :
    cmp_last_digit 125 322 = 1 ∧ cmp_last_digit 523 322 = 1 ∧
    cmp_last_digit 124 322 = 1 := by
  decide

/-- C7: for every pair of values, `cmp_reverse(a, b)` is the negation of
`cmp_standard(a, b)`. -/
theorem c7_cmp_reverse_neg {α : Type} [LinearOrder α] (a b : α) :
    cmp_reverse a b = - cmp_standard a b := by
  rcases lt_trichotomy a b with h | rfl | h
  · rw [cmp_reverse_of_lt h, cmp_standard_of_lt h]
    decide
  · rw [cmp_reverse_of_eq a, cmp_standard_of_eq a]
    decide
  · rw [cmp_reverse_of_gt h, cmp_standard_of_gt h]

theorem c7_witness : cmp_reverse (3 : ℤ) 5 = - cmp_standard 3 5 :=
  c7_cmp_reverse_neg 3 5

/-- C8: `merge_sorted(xs, cmp)` does not mutate `xs`: after the call the
argument list holds exactly the elements it held before, in the same
order.  In the embedding the caller's list is threaded through
`merge_sorted_call`; the body copies `xs` with `deepcopy` on its first
line and never writes to `xs`. -/
theorem c8_merge_sorted_no_mutation {α : Type} {c : α → α → Int}
    (_hv : ValidCmp c) (xs : List α) :
    (merge_sorted_call c xs).2 = xs := rfl

theorem c8_witness :
    (merge_sorted_call cmp_standard ([3, 1, 2] : List ℤ)).2 = [3, 1, 2] :=
  c8_merge_sorted_no_mutation cmp_standard_valid [3, 1, 2]

/-- The comparator argument of `quick_sorted`.  Lines 185–187 of the source
decide the concatenation order by comparing the passed comparator against
the function objects `cmp_standard` and `cmp_reverse` with Python `==`
(function identity); an inductive tag models that identity test.
`custom f` is any other function object — even one that behaves exactly
like `cmp_standard` but is a different object. -/
inductive PyCmp where
  | standard : PyCmp
  | reverse : PyCmp
  | lastDigit : PyCmp
  | custom (f : ℤ → ℤ → Int) : PyCmp

/-- The comparator function a `PyCmp` tag denotes. -/
def PyCmp.eval : PyCmp → ℤ → ℤ → Int
  | .standard => cmp_standard
  | .reverse => cmp_reverse
  | .lastDigit => cmp_last_digit
  | .custom f => f

/-- Embedding of `quick_sorted` (src/sorting.py lines 141–188) for lists of
integers (the partition at lines 175–180 uses Python's intrinsic `<` and
`>` on the elements, not the passed comparator).  `random.choice(xs)` is
modelled by an oracle `pick : ℕ → ℕ` indexed by the position `k` of the
call in the binary recursion tree (the children of node `k` are `2*k+1`
and `2*k+2`): the pivot is the element at index `pick k % len(xs)`, so
every possible sequence of random pivot choices is realized by some
oracle.  The partition buckets are filters that keep the element order of
the single Python `for` loop with its `if/elif/else`.  When the comparator
is neither `cmp_standard` nor `cmp_reverse`, lines 185–188 fall off the
end of the function and Python returns `None`, modelled as `none`; a
`None` from a recursive call would make `s1 + pivot + s2` raise, also
modelled as `none`. -/
def quick_sorted (pick : ℕ → ℕ) (k : ℕ) (xs : List ℤ) (cmp : PyCmp) :
    Option (List ℤ) :=
  if _h : xs.length ≤ 1 then some xs
  else
    let p := xs.getD (pick k % xs.length) 0
    let less_than := xs.filter (fun a => decide (a < p))
    let greater_than := xs.filter (fun a => !decide (a < p) && decide (p < a))
    let pivot := xs.filter (fun a => !decide (a < p) && !decide (p < a))
    let s1 := quick_sorted pick (2 * k + 1) less_than cmp
    let s2 := quick_sorted pick (2 * k + 2) greater_than cmp
    match cmp with
    | .standard =>
      match s1, s2 with
      | some t1, some t2 => some (t1 ++ pivot ++ t2)
      | _, _ => none
    | .reverse =>
      match s1, s2 with
      | some t1, some t2 => some (t2 ++ pivot ++ t1)
      | _, _ => none
    | _ => none
termination_by xs.length
decreasing_by
  · have hpos : 0 < xs.length := by omega
    have hidx : pick k % xs.length < xs.length := Nat.mod_lt _ hpos
    have hmem : xs.getD (pick k % xs.length) 0 ∈ xs := by
      rw [List.getD_eq_getElem xs 0 hidx]
      exact List.getElem_mem hidx
    refine List.length_filter_lt_length_iff_exists.mpr ⟨_, hmem, ?_⟩
    simp
  · have hpos : 0 < xs.length := by omega
    have hidx : pick k % xs.length < xs.length := Nat.mod_lt _ hpos
    have hmem : xs.getD (pick k % xs.length) 0 ∈ xs := by
      rw [List.getD_eq_getElem xs 0 hidx]
      exact List.getElem_mem hidx
    refine List.length_filter_lt_length_iff_exists.mpr ⟨_, hmem, ?_⟩
    simp

/-- Caller's view of one call `quick_sorted(xs, cmp)`: the returned value
together with the contents of `xs` after the call.  The body of
`quick_sorted` only reads `xs` (indexing, iteration, `random.choice`) and
appends to the fresh local lists `less_than`, `greater_than`, `pivot`, so
the final contents of `xs` are its initial contents. -/
def quick_sorted_call (pick : ℕ → ℕ) (k : ℕ) (xs : List ℤ) (cmp : PyCmp) :
    Option (List ℤ) × List ℤ :=
  (quick_sorted pick k xs cmp, xs)

/-- Splitting a list into the three partition buckets of `quick_sorted`
(kept in bucket order: the `p`-bucket, then the `!p && !q`-bucket, then
the `!p && q`-bucket) is a permutation of the list. -/
theorem filter_partition_perm {α : Type} (p q : α → Bool) (l : List α) :
    ((l.filter fun a => p a) ++
      ((l.filter fun a => !p a && !q a) ++ (l.filter fun a => !p a && q a))).Perm
      l := by
  induction l with
  | nil => simp
  | cons a t ih =>
    by_cases hp : p a = true
    · simp only [List.filter_cons, hp, Bool.not_true, Bool.false_and, if_true,
        if_false, Bool.false_eq_true]
      exact ih.cons a
    · have hp' : p a = false := by
        cases hpa : p a
        · rfl
        · exact absurd hpa hp
      by_cases hq : q a = true
      · simp only [List.filter_cons, hp', Bool.not_false, Bool.true_and, hq,
          Bool.and_true, Bool.not_true, Bool.and_false, if_true, if_false,
          Bool.false_eq_true]
        refine List.Perm.trans ?_ (ih.cons a)
        refine List.Perm.trans (List.Perm.append_left _ List.perm_middle) ?_
        exact List.perm_middle
      · have hq' : q a = false := by
          cases hqa : q a
          · rfl
          · exact absurd hqa hq
        simp only [List.filter_cons, hp', hq', Bool.not_false, Bool.true_and,
          Bool.and_false, Bool.and_true, if_true, if_false, Bool.false_eq_true]
        exact List.Perm.trans List.perm_middle (ih.cons a)

/-- The same three buckets concatenated in the opposite order (used by the
`cmp_reverse` branch of `quick_sorted`) also permute the list. -/
theorem filter_partition_perm_rev {α : Type} (p q : α → Bool) (l : List α) :
    ((l.filter fun a => !p a && q a) ++
      ((l.filter fun a => !p a && !q a) ++ (l.filter fun a => p a))).Perm
      l := by
  refine List.Perm.trans List.perm_append_comm ?_
  refine List.Perm.trans (List.Perm.append_right _ List.perm_append_comm) ?_
  refine List.Perm.trans (List.Perm.of_eq (List.append_assoc _ _ _)) ?_
  exact filter_partition_perm p q l

/-- A list all of whose elements are the same value `v` is a chain for any
relation that is reflexive at `v`. -/
theorem chain'_of_all_eq {α : Type} {R : α → α → Prop} {v : α} (hR : R v v) :
    ∀ l : List α, (∀ x ∈ l, x = v) → List.Chain' R l := by
  intro l
  induction l with
  | nil => intro _; exact List.chain'_nil
  | cons x t ih =>
    intro h
    rw [List.chain'_cons']
    refine ⟨?_, ih fun y hy => h y (List.mem_cons_of_mem x hy)⟩
    intro y hy
    have hx : x = v := h x (List.mem_cons_self x t)
    have hyv : y = v := h y (List.mem_cons_of_mem x (List.mem_of_mem_head? hy))
    rw [hx, hyv]
    exact hR

/-- Gluing three sorted blocks into one sorted list when every element of
an earlier block is related to every element of a later block. -/
theorem chain'_three_blocks {α : Type} {R : α → α → Prop} {l m r : List α}
    (hl : List.Chain' R l) (hm : List.Chain' R m) (hr : List.Chain' R r)
    (hlm : ∀ x ∈ l, ∀ y ∈ m, R x y)
    (hlr : ∀ x ∈ l, ∀ y ∈ r, R x y)
    (hmr : ∀ x ∈ m, ∀ y ∈ r, R x y) :
    List.Chain' R (l ++ (m ++ r)) := by
  rw [List.chain'_append]
  refine ⟨hl, ?_, ?_⟩
  · rw [List.chain'_append]
    exact ⟨hm, hr, fun x hx y hy =>
      hmr x (List.mem_of_mem_getLast? hx) y (List.mem_of_mem_head? hy)⟩
  · intro x hx y hy
    have hx' := List.mem_of_mem_getLast? hx
    have hy' := List.mem_of_mem_head? hy
    rcases List.mem_append.mp hy' with h | h
    exacts [hlm x hx' y h, hlr x hx' y h]

/-- Specification of `quick_sorted` under the `cmp_standard` tag: for every
pivot oracle it returns an ascending sorted permutation of the input. -/
theorem quick_sorted_standard_spec (pick : ℕ → ℕ) :
    ∀ (n : ℕ) (xs : List ℤ) (k : ℕ), xs.length ≤ n →
      ∃ out, quick_sorted pick k xs PyCmp.standard = some out ∧ out.Perm xs ∧
        List.Chain' (fun a b : ℤ => a ≤ b) out := by
  intro n
  induction n with
  | zero =>
    intro xs k hlen
    refine ⟨xs, ?_, List.Perm.refl xs, ?_⟩
    · rw [quick_sorted, dif_pos (by omega)]
    · have hnil : xs = [] := List.length_eq_zero.mp (by omega)
      subst hnil
      exact List.chain'_nil
  | succ n ih =>
    intro xs k hlen
    by_cases h1 : xs.length ≤ 1
    · refine ⟨xs, ?_, List.Perm.refl xs, ?_⟩
      · rw [quick_sorted, dif_pos h1]
      · rcases xs with _ | ⟨x, _ | ⟨y, t⟩⟩
        · exact List.chain'_nil
        · exact List.chain'_singleton x
        · simp at h1
    · have hpos : 0 < xs.length := by omega
      have hidx : pick k % xs.length < xs.length := Nat.mod_lt _ hpos
      have hpmem : xs.getD (pick k % xs.length) 0 ∈ xs := by
        rw [List.getD_eq_getElem xs 0 hidx]
        exact List.getElem_mem hidx
      set p := xs.getD (pick k % xs.length) 0 with hp
      have hlt1 : (xs.filter fun a => decide (a < p)).length < xs.length :=
        List.length_filter_lt_length_iff_exists.mpr ⟨p, hpmem, by simp⟩
      have hlt2 :
          (xs.filter fun a => !decide (a < p) && decide (p < a)).length <
            xs.length :=
        List.length_filter_lt_length_iff_exists.mpr ⟨p, hpmem, by simp⟩
      obtain ⟨t1, e1, p1, c1⟩ :=
        ih (xs.filter fun a => decide (a < p)) (2 * k + 1) (by omega)
      obtain ⟨t2, e2, p2, c2⟩ :=
        ih (xs.filter fun a => !decide (a < p) && decide (p < a)) (2 * k + 2)
          (by omega)
      have hpiv_eq :
          ∀ x ∈ xs.filter fun a => !decide (a < p) && !decide (p < a), x = p := by
        intro x hx
        rw [List.mem_filter] at hx
        have hx2 := hx.2
        simp only [Bool.and_eq_true, Bool.not_eq_true', decide_eq_false_iff_not]
          at hx2
        exact le_antisymm (not_lt.mp hx2.2) (not_lt.mp hx2.1)
      have ht1_lt : ∀ x ∈ t1, x < p := by
        intro x hx
        have hm := p1.mem_iff.mp hx
        rw [List.mem_filter] at hm
        simpa using hm.2
      have ht2_gt : ∀ x ∈ t2, p < x := by
        intro x hx
        have hm := p2.mem_iff.mp hx
        rw [List.mem_filter] at hm
        have hm2 := hm.2
        simp only [Bool.and_eq_true, Bool.not_eq_true', decide_eq_false_iff_not,
          decide_eq_true_eq] at hm2
        exact hm2.2
      refine ⟨t1 ++ (xs.filter fun a => !decide (a < p) && !decide (p < a)) ++ t2,
        ?_, ?_, ?_⟩
      · rw [quick_sorted, dif_neg h1, ← hp]
        simp only [e1, e2]
      · rw [List.append_assoc]
        refine List.Perm.trans (p1.append (List.Perm.append_left _ p2)) ?_
        exact filter_partition_perm (fun a => decide (a < p))
          (fun a => decide (p < a)) xs
      · rw [List.append_assoc]
        refine chain'_three_blocks c1
          (chain'_of_all_eq (le_refl p) _ hpiv_eq) c2 ?_ ?_ ?_
        · intro x hx y hy
          rw [hpiv_eq y hy]
          exact (ht1_lt x hx).le
        · intro x hx y hy
          exact ((ht1_lt x hx).trans (ht2_gt y hy)).le
        · intro x hx y hy
          rw [hpiv_eq x hx]
          exact (ht2_gt y hy).le

/-- Specification of `quick_sorted` under the `cmp_reverse` tag: for every
pivot oracle it returns a descending sorted permutation of the input. -/
theorem quick_sorted_reverse_spec (pick : ℕ → ℕ) :
    ∀ (n : ℕ) (xs : List ℤ) (k : ℕ), xs.length ≤ n →
      ∃ out, quick_sorted pick k xs PyCmp.reverse = some out ∧ out.Perm xs ∧
        List.Chain' (fun a b : ℤ => b ≤ a) out := by
  intro n
  induction n with
  | zero =>
    intro xs k hlen
    refine ⟨xs, ?_, List.Perm.refl xs, ?_⟩
    · rw [quick_sorted, dif_pos (by omega)]
    · have hnil : xs = [] := List.length_eq_zero.mp (by omega)
      subst hnil
      exact List.chain'_nil
  | succ n ih =>
    intro xs k hlen
    by_cases h1 : xs.length ≤ 1
    · refine ⟨xs, ?_, List.Perm.refl xs, ?_⟩
      · rw [quick_sorted, dif_pos h1]
      · rcases xs with _ | ⟨x, _ | ⟨y, t⟩⟩
        · exact List.chain'_nil
        · exact List.chain'_singleton x
        · simp at h1
    · have hpos : 0 < xs.length := by omega
      have hidx : pick k % xs.length < xs.length := Nat.mod_lt _ hpos
      have hpmem : xs.getD (pick k % xs.length) 0 ∈ xs := by
        rw [List.getD_eq_getElem xs 0 hidx]
        exact List.getElem_mem hidx
      set p := xs.getD (pick k % xs.length) 0 with hp
      have hlt1 : (xs.filter fun a => decide (a < p)).length < xs.length :=
        List.length_filter_lt_length_iff_exists.mpr ⟨p, hpmem, by simp⟩
      have hlt2 :
          (xs.filter fun a => !decide (a < p) && decide (p < a)).length <
            xs.length :=
        List.length_filter_lt_length_iff_exists.mpr ⟨p, hpmem, by simp⟩
      obtain ⟨t1, e1, p1, c1⟩ :=
        ih (xs.filter fun a => decide (a < p)) (2 * k + 1) (by omega)
      obtain ⟨t2, e2, p2, c2⟩ :=
        ih (xs.filter fun a => !decide (a < p) && decide (p < a)) (2 * k + 2)
          (by omega)
      have hpiv_eq :
          ∀ x ∈ xs.filter fun a => !decide (a < p) && !decide (p < a), x = p := by
        intro x hx
        rw [List.mem_filter] at hx
        have hx2 := hx.2
        simp only [Bool.and_eq_true, Bool.not_eq_true', decide_eq_false_iff_not]
          at hx2
        exact le_antisymm (not_lt.mp hx2.2) (not_lt.mp hx2.1)
      have ht1_lt : ∀ x ∈ t1, x < p := by
        intro x hx
        have hm := p1.mem_iff.mp hx
        rw [List.mem_filter] at hm
        simpa using hm.2
      have ht2_gt : ∀ x ∈ t2, p < x := by
        intro x hx
        have hm := p2.mem_iff.mp hx
        rw [List.mem_filter] at hm
        have hm2 := hm.2
        simp only [Bool.and_eq_true, Bool.not_eq_true', decide_eq_false_iff_not,
          decide_eq_true_eq] at hm2
        exact hm2.2
      refine ⟨t2 ++ (xs.filter fun a => !decide (a < p) && !decide (p < a)) ++ t1,
        ?_, ?_, ?_⟩
      · rw [quick_sorted, dif_neg h1, ← hp]
        simp only [e1, e2]
      · rw [List.append_assoc]
        refine List.Perm.trans (p2.append (List.Perm.append_left _ p1)) ?_
        exact filter_partition_perm_rev (fun a => decide (a < p))
          (fun a => decide (p < a)) xs
      · rw [List.append_assoc]
        refine chain'_three_blocks c2
          (chain'_of_all_eq (R := fun a b : ℤ => b ≤ a) (le_refl p) _ hpiv_eq)
          c1 ?_ ?_ ?_
        · intro x hx y hy
          rw [hpiv_eq y hy]
          exact (ht2_gt x hx).le
        · intro x hx y hy
          exact ((ht1_lt y hy).trans (ht2_gt x hx)).le
        · intro x hx y hy
          rw [hpiv_eq x hx]
          exact (ht1_lt y hy).le

/-- C4: under the ascending comparator (`cmp_standard`) or the descending
comparator (`cmp_reverse`), `quick_sorted(xs, c)` returns a permutation of
`xs` that is sorted per the comparator (every adjacent comparison gives -1
or 0), for every possible random pivot choice (every pivot oracle). -/
theorem c4_quick_sorted_sorts (pick : ℕ → ℕ) (k : ℕ) (xs : List ℤ)
    (cmp : PyCmp) (hcmp : cmp = PyCmp.standard ∨ cmp = PyCmp.reverse) :
    ∃ out, quick_sorted pick k xs cmp = some out ∧ out.Perm xs ∧
      List.Chain' (fun a b => cmp.eval a b = -1 ∨ cmp.eval a b = 0) out := by
  rcases hcmp with rfl | rfl
  · obtain ⟨out, e, hperm, hchain⟩ :=
      quick_sorted_standard_spec pick xs.length xs k le_rfl
    refine ⟨out, e, hperm, ?_⟩
    refine hchain.imp ?_
    intro a b hab
    show cmp_standard a b = -1 ∨ cmp_standard a b = 0
    rcases eq_or_lt_of_le hab with rfl | h
    · exact Or.inr (cmp_standard_of_eq a)
    · exact Or.inl (cmp_standard_of_lt h)
  · obtain ⟨out, e, hperm, hchain⟩ :=
      quick_sorted_reverse_spec pick xs.length xs k le_rfl
    refine ⟨out, e, hperm, ?_⟩
    refine hchain.imp ?_
    intro a b hab
    show cmp_reverse a b = -1 ∨ cmp_reverse a b = 0
    rcases eq_or_lt_of_le hab with h | h
    · rw [h]
      exact Or.inr (cmp_reverse_of_eq a)
    · exact Or.inl (cmp_reverse_of_gt h)

theorem c4_witness :
    ∃ out, quick_sorted (fun _ => 0) 0 ([3, 1, 2] : List ℤ) PyCmp.standard =
        some out ∧ out.Perm [3, 1, 2] ∧
      List.Chain'
        (fun a b => PyCmp.standard.eval a b = -1 ∨ PyCmp.standard.eval a b = 0)
        out :=
  c4_quick_sorted_sorts (fun _ => 0) 0 [3, 1, 2] PyCmp.standard (Or.inl rfl)

/-- C9: `quick_sorted(xs, c)` does not mutate `xs`: after the call the
argument list holds exactly the elements it held before, in the same
order.  In the embedding the caller's list is threaded through
`quick_sorted_call`; the body only reads `xs` and appends to fresh local
bucket lists. -/
theorem c9_quick_sorted_no_mutation (pick : ℕ → ℕ) (k : ℕ) (xs : List ℤ)
    (cmp : PyCmp) (_hv : ValidCmp cmp.eval) :
    (quick_sorted_call pick k xs cmp).2 = xs := rfl

theorem c9_witness :
    (quick_sorted_call (fun _ => 0) 0 ([3, 1, 2] : List ℤ) PyCmp.standard).2 =
      [3, 1, 2] :=
  c9_quick_sorted_no_mutation (fun _ => 0) 0 [3, 1, 2] PyCmp.standard
    cmp_standard_valid

/-- C10: with any comparator that is not the function `cmp_standard` and
not the function `cmp_reverse` (for example `cmp_last_digit`), a call on a
list of length at least 2 reaches neither `return` at lines 185–188 and
falls off the end of the function: no list is returned (`None`). -/
theorem c10_quick_sorted_none (pick : ℕ → ℕ) (k : ℕ) (xs : List ℤ)
    (cmp : PyCmp) (h1 : cmp ≠ PyCmp.standard) (h2 : cmp ≠ PyCmp.reverse)
    (hlen : 2 ≤ xs.length) :
    quick_sorted pick k xs cmp = none := by
  rw [quick_sorted, dif_neg (by omega)]
  cases cmp with
  | standard => exact absurd rfl h1
  | reverse => exact absurd rfl h2
  | lastDigit => rfl
  | custom f => rfl

theorem c10_witness :
    quick_sorted (fun _ => 0) 0 ([125, 322] : List ℤ) PyCmp.lastDigit = none :=
  c10_quick_sorted_none (fun _ => 0) 0 [125, 322] PyCmp.lastDigit
    (fun h => PyCmp.noConfusion h) (fun h => PyCmp.noConfusion h) (by decide)

/-- Modelled from the spec: exchanging the values at two positions of the
array, the elementary mutation step of the in-place quicksort of §4.5 of
the spec.  The implementation of `quick_sort` is absent from
`src/sorting.py` (its body at lines 191–219 is only a docstring), so the
in-place algorithm below is built from the spec's words.  Out-of-range
positions never occur in the verified calls. -/
def swapL {α : Type} [Inhabited α] (A : List α) (i j : ℕ) : List α :=
  (A.set i (A.getD j default)).set j (A.getD i default)

theorem getD_set {α : Type} (l : List α) (i j : ℕ) (v d : α) :
    (l.set i v).getD j d = if i = j ∧ j < l.length then v else l.getD j d := by
  by_cases hj : j < l.length
  · rw [List.getD_eq_getElem _ d (by rw [List.length_set]; exact hj),
      List.getElem_set]
    by_cases hij : i = j
    · rw [if_pos hij, if_pos ⟨hij, hj⟩]
    · rw [if_neg hij, if_neg (fun hh => hij hh.1), List.getD_eq_getElem _ d hj]
  · rw [List.getD_eq_default _ d (by rw [List.length_set]; omega),
      List.getD_eq_default _ d (by omega), if_neg (fun hh => hj hh.2)]

theorem length_swapL {α : Type} [Inhabited α] (A : List α) (i j : ℕ) :
    (swapL A i j).length = A.length := by
  unfold swapL
  rw [List.length_set, List.length_set]

theorem getD_swapL {α : Type} [Inhabited α] (A : List α) (i j k : ℕ)
    (hi : i < A.length) (hj : j < A.length) :
    (swapL A i j).getD k default =
      if k = j then A.getD i default
      else if k = i then A.getD j default
      else A.getD k default := by
  unfold swapL
  rw [getD_set, getD_set, List.length_set]
  by_cases h1 : k = j
  · rw [if_pos ⟨h1.symm, by omega⟩, if_pos h1]
  · rw [if_neg (fun hh => h1 hh.1.symm), if_neg h1]
    by_cases h2 : k = i
    · rw [if_pos ⟨h2.symm, by omega⟩, if_pos h2]
    · rw [if_neg (fun hh => h2 hh.1.symm), if_neg h2]

theorem getD_cons_set_perm {α : Type} [Inhabited α] (x : α) :
    ∀ (A : List α) (j : ℕ), j < A.length →
      (A.getD j default :: A.set j x).Perm (x :: A) := by
  intro A
  induction A with
  | nil =>
    intro j hj
    simp at hj
  | cons a t ih =>
    intro j hj
    cases j with
    | zero =>
      simp only [List.getD_cons_zero, List.set_cons_zero]
      exact List.Perm.swap x a t
    | succ m =>
      simp only [List.getD_cons_succ, List.set_cons_succ]
      have hm : m < t.length := by
        simp only [List.length_cons] at hj
        omega
      refine List.Perm.trans
        (List.Perm.swap a (t.getD m default) (t.set m x)) ?_
      refine List.Perm.trans (List.Perm.cons a (ih m hm)) ?_
      exact List.Perm.swap x a t

theorem swapL_perm {α : Type} [Inhabited α] :
    ∀ (A : List α) (i j : ℕ), i < A.length → j < A.length →
      (swapL A i j).Perm A := by
  intro A
  induction A with
  | nil =>
    intro i j hi _
    simp at hi
  | cons a t ih =>
    intro i j hi hj
    cases i with
    | zero =>
      cases j with
      | zero =>
        unfold swapL
        simp only [List.getD_cons_zero, List.set_cons_zero]
        exact List.Perm.refl _
      | succ m =>
        have hm : m < t.length := by
          simp only [List.length_cons] at hj
          omega
        unfold swapL
        simp only [List.getD_cons_zero, List.getD_cons_succ,
          List.set_cons_zero, List.set_cons_succ]
        exact getD_cons_set_perm a t m hm
    | succ l =>
      have hl : l < t.length := by
        simp only [List.length_cons] at hi
        omega
      cases j with
      | zero =>
        have goal := getD_cons_set_perm a t l hl
        unfold swapL
        simp only [List.getD_cons_zero, List.getD_cons_succ,
          List.set_cons_zero, List.set_cons_succ]
        exact goal
      | succ m =>
        have hm : m < t.length := by
          simp only [List.length_cons] at hj
          omega
        unfold swapL
        simp only [List.getD_cons_succ, List.set_cons_succ]
        refine List.Perm.cons a ?_
        have := ih l m hl hm
        unfold swapL at this
        exact this

/-- Modelled from the spec (§4.5): the left-to-right scan of the Lomuto
partition scheme.  `pivot` is the pivot value, `hi` the pivot's position
(one past the scanned range), `i` the boundary index of elements known to
precede the pivot per the comparator, `j` the scan cursor.  When the
element under the cursor precedes the pivot (`compare` returns -1), it is
swapped to the boundary and the boundary advances. -/
def lomutoGo {α : Type} [Inhabited α] (c : α → α → Int) (pivot : α) (hi : ℕ) :
    List α → ℕ → ℕ → List α × ℕ
  | A, i, j =>
    if j < hi then
      if c (A.getD j default) pivot = -1 then
        lomutoGo c pivot hi (swapL A i j) (i + 1) (j + 1)
      else
        lomutoGo c pivot hi A i (j + 1)
    else (A, i)
termination_by A i j => hi - j

theorem lomutoGo_length {α : Type} [Inhabited α] (c : α → α → Int) (pivot : α)
    (hi : ℕ) (A : List α) (i j : ℕ) :
    (lomutoGo c pivot hi A i j).1.length = A.length := by
  induction A, i, j using lomutoGo.induct c pivot hi with
  | case1 A i j h1 h2 ih =>
    rw [lomutoGo]
    simp only [if_pos h1, if_pos h2]
    rw [ih, length_swapL]
  | case2 A i j h1 h2 ih =>
    rw [lomutoGo]
    simp only [if_pos h1, if_neg h2]
    exact ih
  | case3 A i j h1 =>
    rw [lomutoGo]
    simp only [if_neg h1]

theorem lomutoGo_snd_ge {α : Type} [Inhabited α] (c : α → α → Int) (pivot : α)
    (hi : ℕ) (A : List α) (i j : ℕ) :
    i ≤ (lomutoGo c pivot hi A i j).2 := by
  induction A, i, j using lomutoGo.induct c pivot hi with
  | case1 A i j h1 h2 ih =>
    rw [lomutoGo]
    simp only [if_pos h1, if_pos h2]
    omega
  | case2 A i j h1 h2 ih =>
    rw [lomutoGo]
    simp only [if_pos h1, if_neg h2]
    exact ih
  | case3 A i j h1 =>
    rw [lomutoGo]
    simp only [if_neg h1]
    omega

theorem lomutoGo_snd_le {α : Type} [Inhabited α] (c : α → α → Int) (pivot : α)
    (hi : ℕ) (A : List α) (i j : ℕ) :
    (lomutoGo c pivot hi A i j).2 ≤ i + (hi - j) := by
  induction A, i, j using lomutoGo.induct c pivot hi with
  | case1 A i j h1 h2 ih =>
    rw [lomutoGo]
    simp only [if_pos h1, if_pos h2]
    omega
  | case2 A i j h1 h2 ih =>
    rw [lomutoGo]
    simp only [if_pos h1, if_neg h2]
    omega
  | case3 A i j h1 =>
    rw [lomutoGo]
    simp only [if_neg h1]
    omega

theorem lomutoGo_perm {α : Type} [Inhabited α] (c : α → α → Int) (pivot : α)
    (hi : ℕ) (A : List α) (i j : ℕ) (hij : i ≤ j) (hlen : hi ≤ A.length) :
    (lomutoGo c pivot hi A i j).1.Perm A := by
  induction A, i, j using lomutoGo.induct c pivot hi with
  | case1 A i j h1 h2 ih =>
    rw [lomutoGo]
    simp only [if_pos h1, if_pos h2]
    refine List.Perm.trans (ih (by omega) (by rw [length_swapL]; exact hlen)) ?_
    exact swapL_perm A i j (by omega) (by omega)
  | case2 A i j h1 h2 ih =>
    rw [lomutoGo]
    simp only [if_pos h1, if_neg h2]
    exact ih (by omega) hlen
  | case3 A i j h1 =>
    rw [lomutoGo]
    simp only [if_neg h1]
    exact List.Perm.refl A

theorem lomutoGo_frame {α : Type} [Inhabited α] (c : α → α → Int) (pivot : α)
    (hi : ℕ) (A : List α) (i j : ℕ) (hij : i ≤ j) (hlen : hi ≤ A.length) :
    ∀ k, k < i ∨ hi ≤ k →
      (lomutoGo c pivot hi A i j).1.getD k default = A.getD k default := by
  induction A, i, j using lomutoGo.induct c pivot hi with
  | case1 A i j h1 h2 ih =>
    intro k hk
    rw [lomutoGo]
    simp only [if_pos h1, if_pos h2]
    rw [ih (by omega) (by rw [length_swapL]; exact hlen) k
      (by rcases hk with hk | hk; exacts [Or.inl (by omega), Or.inr hk])]
    rw [getD_swapL A i j k (by omega) (by omega),
      if_neg (by omega), if_neg (by omega)]
  | case2 A i j h1 h2 ih =>
    intro k hk
    rw [lomutoGo]
    simp only [if_pos h1, if_neg h2]
    exact ih (by omega) hlen k hk
  | case3 A i j h1 =>
    intro k _
    rw [lomutoGo]
    simp only [if_neg h1]

theorem lomutoGo_left_class {α : Type} [Inhabited α] (c : α → α → Int)
    (pivot : α) (hi : ℕ) (A : List α) (i j : ℕ) (hij : i ≤ j)
    (hlen : hi ≤ A.length) :
    ∀ k, i ≤ k → k < (lomutoGo c pivot hi A i j).2 →
      c ((lomutoGo c pivot hi A i j).1.getD k default) pivot = -1 := by
  induction A, i, j using lomutoGo.induct c pivot hi with
  | case1 A i j h1 h2 ih =>
    intro k hk1 hk2
    rw [lomutoGo] at hk2 ⊢
    simp only [if_pos h1, if_pos h2] at hk2 ⊢
    rcases eq_or_lt_of_le hk1 with rfl | hk1'
    · rw [lomutoGo_frame c pivot hi (swapL A i j) (i + 1) (j + 1) (by omega)
        (by rw [length_swapL]; exact hlen) i (Or.inl (by omega))]
      rw [getD_swapL A i j i (by omega) (by omega)]
      by_cases hij' : i = j
      · rw [if_pos hij', hij']
        exact h2
      · rw [if_neg hij', if_pos rfl]
        exact h2
    · exact ih (by omega) (by rw [length_swapL]; exact hlen) k (by omega) hk2
  | case2 A i j h1 h2 ih =>
    intro k hk1 hk2
    rw [lomutoGo] at hk2 ⊢
    simp only [if_pos h1, if_neg h2] at hk2 ⊢
    exact ih (by omega) hlen k hk1 hk2
  | case3 A i j h1 =>
    intro k hk1 hk2
    rw [lomutoGo] at hk2
    simp only [if_neg h1] at hk2
    omega

theorem lomutoGo_right_class {α : Type} [Inhabited α] (c : α → α → Int)
    (pivot : α) (hi : ℕ) (A : List α) (i j : ℕ) (hij : i ≤ j) (hjhi : j ≤ hi)
    (hlen : hi ≤ A.length)
    (hmid : ∀ k, i ≤ k → k < j → c (A.getD k default) pivot ≠ -1) :
    ∀ k, (lomutoGo c pivot hi A i j).2 ≤ k → k < hi →
      c ((lomutoGo c pivot hi A i j).1.getD k default) pivot ≠ -1 := by
  induction A, i, j using lomutoGo.induct c pivot hi with
  | case1 A i j h1 h2 ih =>
    intro k hk1 hk2
    rw [lomutoGo] at hk1 ⊢
    simp only [if_pos h1, if_pos h2] at hk1 ⊢
    refine ih (by omega) (by omega) (by rw [length_swapL]; exact hlen) ?_ k hk1 hk2
    intro m hm1 hm2
    rw [getD_swapL A i j m (by omega) (by omega)]
    by_cases hmj : m = j
    · rw [if_pos hmj]
      exact hmid i le_rfl (by omega)
    · rw [if_neg hmj, if_neg (by omega)]
      exact hmid m (by omega) (by omega)
  | case2 A i j h1 h2 ih =>
    intro k hk1 hk2
    rw [lomutoGo] at hk1 ⊢
    simp only [if_pos h1, if_neg h2] at hk1 ⊢
    refine ih (by omega) (by omega) hlen ?_ k hk1 hk2
    intro m hm1 hm2
    rcases Nat.lt_or_ge m j with hmj | hmj
    · exact hmid m hm1 hmj
    · have hmj' : m = j := by omega
      rw [hmj']
      exact h2
  | case3 A i j h1 =>
    intro k hk1 hk2
    rw [lomutoGo] at hk1 ⊢
    simp only [if_neg h1] at hk1 ⊢
    exact hmid k hk1 (by omega)

theorem lomutoGo_window {α : Type} [Inhabited α] (c : α → α → Int) (pivot : α)
    (hi : ℕ) (A : List α) (i j : ℕ) (hij : i ≤ j) (hlen : hi ≤ A.length)
    (P : α → Prop) (w1 w2 : ℕ) (hw1 : w1 ≤ i) (hw2 : hi ≤ w2)
    (hP : ∀ k, w1 ≤ k → k < w2 → P (A.getD k default)) :
    ∀ k, w1 ≤ k → k < w2 →
      P ((lomutoGo c pivot hi A i j).1.getD k default) := by
  induction A, i, j using lomutoGo.induct c pivot hi with
  | case1 A i j h1 h2 ih =>
    intro k hk1 hk2
    rw [lomutoGo]
    simp only [if_pos h1, if_pos h2]
    refine ih (by omega) (by rw [length_swapL]; exact hlen) (by omega) ?_ k hk1 hk2
    intro m hm1 hm2
    rw [getD_swapL A i j m (by omega) (by omega)]
    by_cases hmj : m = j
    · rw [if_pos hmj]
      exact hP i (by omega) (by omega)
    · rw [if_neg hmj]
      by_cases hmi : m = i
      · rw [if_pos hmi]
        exact hP j (by omega) (by omega)
      · rw [if_neg hmi]
        exact hP m hm1 hm2
  | case2 A i j h1 h2 ih =>
    intro k hk1 hk2
    rw [lomutoGo]
    simp only [if_pos h1, if_neg h2]
    exact ih (by omega) hlen hw1 hP k hk1 hk2
  | case3 A i j h1 =>
    intro k hk1 hk2
    rw [lomutoGo]
    simp only [if_neg h1]
    exact hP k hk1 hk2

/-- Modelled from the spec (§4.5): one Lomuto partition step on the active
range `[lo, hi]` — select the last element of the range as pivot, scan
left to right maintaining the boundary of elements that precede the pivot
per `compare`, then swap the pivot into its final boundary position.
Returns the new array contents and the pivot's final position. -/
def lomutoPartition {α : Type} [Inhabited α] (c : α → α → Int) (A : List α)
    (lo hi : ℕ) : List α × ℕ :=
  let pr := lomutoGo c (A.getD hi default) hi A lo lo
  (swapL pr.1 pr.2 hi, pr.2)

theorem lomutoPartition_snd_ge {α : Type} [Inhabited α] (c : α → α → Int)
    (A : List α) (lo hi : ℕ) : lo ≤ (lomutoPartition c A lo hi).2 := by
  simp only [lomutoPartition]
  exact lomutoGo_snd_ge c (A.getD hi default) hi A lo lo

theorem lomutoPartition_snd_le {α : Type} [Inhabited α] (c : α → α → Int)
    (A : List α) (lo hi : ℕ) :
    (lomutoPartition c A lo hi).2 ≤ lo + (hi - lo) := by
  simp only [lomutoPartition]
  exact lomutoGo_snd_le c (A.getD hi default) hi A lo lo

/-- Postconditions of the Lomuto partition on an in-bounds nonempty range:
length and multiset are preserved, positions outside the range are
untouched, the pivot ends at the returned position `p` with everything in
`[lo, p)` preceding it per the comparator and nothing in `(p, hi]`
preceding it, and any property enjoyed by all values in the window
`[lo, hi]` before the call is enjoyed by all values there after it. -/
theorem lomutoPartition_spec {α : Type} [Inhabited α] (c : α → α → Int)
    (A : List α) (lo hi : ℕ) (hlo : lo ≤ hi) (hhi : hi < A.length) :
    (lomutoPartition c A lo hi).1.length = A.length ∧
    (lomutoPartition c A lo hi).1.Perm A ∧
    (∀ k, k < lo ∨ hi < k →
      (lomutoPartition c A lo hi).1.getD k default = A.getD k default) ∧
    (∀ k, lo ≤ k → k < (lomutoPartition c A lo hi).2 →
      c ((lomutoPartition c A lo hi).1.getD k default)
        ((lomutoPartition c A lo hi).1.getD
          (lomutoPartition c A lo hi).2 default) = -1) ∧
    (∀ k, (lomutoPartition c A lo hi).2 < k → k ≤ hi →
      c ((lomutoPartition c A lo hi).1.getD k default)
        ((lomutoPartition c A lo hi).1.getD
          (lomutoPartition c A lo hi).2 default) ≠ -1) ∧
    (∀ P : α → Prop, (∀ k, lo ≤ k → k ≤ hi → P (A.getD k default)) →
      ∀ k, lo ≤ k → k ≤ hi →
        P ((lomutoPartition c A lo hi).1.getD k default)) := by
  have hp1 : lo ≤ (lomutoGo c (A.getD hi default) hi A lo lo).2 :=
    lomutoGo_snd_ge c (A.getD hi default) hi A lo lo
  have hp2 : (lomutoGo c (A.getD hi default) hi A lo lo).2 ≤ hi := by
    have := lomutoGo_snd_le c (A.getD hi default) hi A lo lo
    omega
  have hBlen : (lomutoGo c (A.getD hi default) hi A lo lo).1.length = A.length :=
    lomutoGo_length c (A.getD hi default) hi A lo lo
  have hBperm : (lomutoGo c (A.getD hi default) hi A lo lo).1.Perm A :=
    lomutoGo_perm c (A.getD hi default) hi A lo lo le_rfl (by omega)
  have hBframe := lomutoGo_frame c (A.getD hi default) hi A lo lo le_rfl
    (by omega)
  have hBleft := lomutoGo_left_class c (A.getD hi default) hi A lo lo le_rfl
    (by omega)
  have hBright := lomutoGo_right_class c (A.getD hi default) hi A lo lo le_rfl
    hlo (by omega) (fun k hk1 hk2 => absurd (lt_of_le_of_lt hk1 hk2)
      (lt_irrefl lo))
  have hBhi : (lomutoGo c (A.getD hi default) hi A lo lo).1.getD hi default =
      A.getD hi default :=
    hBframe hi (Or.inr le_rfl)
  simp only [lomutoPartition] at *
  set B := (lomutoGo c (A.getD hi default) hi A lo lo).1 with hB
  set p := (lomutoGo c (A.getD hi default) hi A lo lo).2 with hp
  have hplen : p < B.length := by omega
  have hhilen : hi < B.length := by omega
  have hpv : (swapL B p hi).getD p default = A.getD hi default := by
    rw [getD_swapL B p hi p hplen hhilen]
    by_cases hph : p = hi
    · rw [if_pos hph, hph]
      exact hBhi
    · rw [if_neg hph, if_pos rfl]
      exact hBhi
  refine ⟨?_, ?_, ?_, ?_, ?_, ?_⟩
  · rw [length_swapL]
    exact hBlen
  · exact (swapL_perm B p hi hplen hhilen).trans hBperm
  · intro k hk
    rw [getD_swapL B p hi k hplen hhilen, if_neg (by omega), if_neg (by omega)]
    exact hBframe k (by omega)
  · intro k hk1 hk2
    rw [hpv, getD_swapL B p hi k hplen hhilen, if_neg (by omega),
      if_neg (by omega)]
    exact hBleft k hk1 hk2
  · intro k hk1 hk2
    rw [hpv]
    by_cases hkhi : k = hi
    · rw [getD_swapL B p hi k hplen hhilen, if_pos hkhi]
      exact hBright p le_rfl (by omega)
    · rw [getD_swapL B p hi k hplen hhilen, if_neg hkhi, if_neg (by omega)]
      exact hBright k (by omega) (by omega)
  · intro P hP
    have hwin := lomutoGo_window c (A.getD hi default) hi A lo lo le_rfl
      (by omega) P lo (hi + 1) le_rfl (by omega)
      (fun k hk1 hk2 => hP k hk1 (by omega))
    intro k hk1 hk2
    rw [getD_swapL B p hi k hplen hhilen]
    by_cases h1 : k = hi
    · rw [if_pos h1]
      exact hwin p hp1 (by omega)
    · rw [if_neg h1]
      by_cases h2 : k = p
      · rw [if_pos h2]
        exact hwin hi (by omega) (by omega)
      · rw [if_neg h2]
        exact hwin k hk1 (by omega)

/-- Modelled from the spec (§4.5): in-place quicksort of the active range
`[lo, hi]` — if the range has at least two elements, partition it with the
Lomuto scheme and recurse on the sub-ranges strictly left and strictly
right of the pivot's final position.  The array contents are threaded as a
value: the result is the final contents of the caller's storage. -/
def quickSortRange {α : Type} [Inhabited α] (c : α → α → Int) (A : List α)
    (lo hi : ℕ) : List α :=
  if lo < hi then
    quickSortRange c
      (quickSortRange c (lomutoPartition c A lo hi).1 lo
        ((lomutoPartition c A lo hi).2 - 1))
      ((lomutoPartition c A lo hi).2 + 1) hi
  else A
termination_by hi - lo
decreasing_by
  · have h1 := lomutoPartition_snd_ge c A lo hi
    have h2 := lomutoPartition_snd_le c A lo hi
    omega
  · have h1 := lomutoPartition_snd_ge c A lo hi
    have h2 := lomutoPartition_snd_le c A lo hi
    omega

/-- Main invariant of the range quicksort, proved by induction on the size
of the range: length preservation, permutation, untouched positions
outside the range, preservation of any property holding on all values in
the range, and sortedness of adjacent pairs inside the range. -/
theorem quickSortRange_spec {α : Type} [Inhabited α] {c : α → α → Int}
    (hv : ValidCmp c) :
    ∀ (n : ℕ) (A : List α) (lo hi : ℕ), hi - lo ≤ n → hi < A.length →
      (quickSortRange c A lo hi).length = A.length ∧
      (quickSortRange c A lo hi).Perm A ∧
      (∀ k, k < lo ∨ hi < k →
        (quickSortRange c A lo hi).getD k default = A.getD k default) ∧
      (∀ P : α → Prop, (∀ k, lo ≤ k → k ≤ hi → P (A.getD k default)) →
        ∀ k, lo ≤ k → k ≤ hi →
          P ((quickSortRange c A lo hi).getD k default)) ∧
      (∀ j, lo ≤ j → j < hi →
        c ((quickSortRange c A lo hi).getD j default)
          ((quickSortRange c A lo hi).getD (j + 1) default) ≤ 0) := by
  intro n
  induction n with
  | zero =>
    intro A lo hi hn hhi
    have hres : quickSortRange c A lo hi = A := by
      rw [quickSortRange, if_neg (by omega)]
    rw [hres]
    exact ⟨rfl, List.Perm.refl A, fun k _ => rfl,
      fun P hP k hk1 hk2 => hP k hk1 hk2,
      fun j hj1 hj2 => absurd hj2 (by omega)⟩
  | succ n ih =>
    intro A lo hi hn hhi
    by_cases hlt : lo < hi
    · obtain ⟨plen, pperm, pframe, pleft, pright, pwin⟩ :=
        lomutoPartition_spec c A lo hi (le_of_lt hlt) hhi
      have hres : quickSortRange c A lo hi =
          quickSortRange c
            (quickSortRange c (lomutoPartition c A lo hi).1 lo
              ((lomutoPartition c A lo hi).2 - 1))
            ((lomutoPartition c A lo hi).2 + 1) hi := by
        rw [quickSortRange, if_pos hlt]
      have hp1' := lomutoPartition_snd_ge c A lo hi
      have hp2' := lomutoPartition_snd_le c A lo hi
      set A1 := (lomutoPartition c A lo hi).1 with hA1def
      set p := (lomutoPartition c A lo hi).2 with hpdef
      have hp1 : lo ≤ p := hp1'
      have hp2 : p ≤ hi := by omega
      obtain ⟨Llen, Lperm, Lframe, Lwin, Lsort⟩ :=
        ih A1 lo (p - 1) (by omega) (by omega)
      set B := quickSortRange c A1 lo (p - 1) with hBdef
      obtain ⟨Rlen, Rperm, Rframe, Rwin, Rsort⟩ :=
        ih B (p + 1) hi (by omega) (by omega)
      set C := quickSortRange c B (p + 1) hi with hCdef
      have hBp : B.getD p default = A1.getD p default := by
        by_cases hp0 : p = 0
        · have hlo0 : lo = 0 := by omega
          rw [hBdef, hp0, hlo0, quickSortRange, if_neg (by omega)]
        · exact Lframe p (Or.inr (by omega))
      have hBleft : ∀ k, lo ≤ k → k < p →
          c (B.getD k default) (A1.getD p default) = -1 := by
        by_cases hp0 : p = 0
        · intro k _ hk2
          omega
        · intro k hk1 hk2
          exact Lwin (fun x => c x (A1.getD p default) = -1)
            (fun m hm1 hm2 => pleft m hm1 (by omega)) k hk1 (by omega)
      have hCp : C.getD p default = A1.getD p default := by
        rw [Rframe p (Or.inl (by omega))]
        exact hBp
      have hCleft : ∀ k, lo ≤ k → k < p →
          c (C.getD k default) (A1.getD p default) = -1 := by
        intro k hk1 hk2
        rw [Rframe k (Or.inl (by omega))]
        exact hBleft k hk1 hk2
      have hCright : ∀ k, p < k → k ≤ hi →
          c (C.getD k default) (A1.getD p default) ≠ -1 := by
        intro k hk1 hk2
        refine Rwin (fun x => c x (A1.getD p default) ≠ -1) ?_ k (by omega) hk2
        intro m hm1 hm2
        rw [Lframe m (Or.inr (by omega))]
        exact pright m (by omega) hm2
      rw [hres]
      refine ⟨?_, ?_, ?_, ?_, ?_⟩
      · rw [Rlen, Llen, plen]
      · exact Rperm.trans (Lperm.trans pperm)
      · intro k hk
        have hk1 : k < p + 1 ∨ hi < k := by omega
        have hk2 : k < lo ∨ p - 1 < k := by omega
        rw [Rframe k hk1, Lframe k hk2, pframe k hk]
      · intro P hP k hk1 hk2
        have hPA1 : ∀ k, lo ≤ k → k ≤ hi → P (A1.getD k default) := pwin P hP
        have hPB : ∀ k, lo ≤ k → k ≤ hi → P (B.getD k default) := by
          intro m hm1 hm2
          by_cases hm : m ≤ p - 1
          · exact Lwin P (fun r hr1 hr2 => hPA1 r hr1 (by omega)) m hm1 hm
          · rw [Lframe m (Or.inr (by omega))]
            exact hPA1 m hm1 hm2
        by_cases hk : p + 1 ≤ k
        · exact Rwin P (fun r hr1 hr2 => hPB r (by omega) hr2) k hk hk2
        · rw [Rframe k (Or.inl (by omega))]
          exact hPB k hk1 hk2
      · intro j hj1 hj2
        rcases Nat.lt_trichotomy j p with hj | hj | hj
        · rcases Nat.lt_or_ge (j + 1) p with hj' | hj'
          · rw [Rframe j (Or.inl (by omega)),
              Rframe (j + 1) (Or.inl (by omega))]
            exact Lsort j hj1 (by omega)
          · have hjp : j + 1 = p := by omega
            rw [hjp, hCp]
            have := hCleft j hj1 hj
            omega
        · subst hj
          have hne := hCright (p + 1) (by omega) (by omega)
          have hanti := hv.antisymm (C.getD (p + 1) default) (A1.getD p default)
          rcases hv.range (C.getD (p + 1) default) (A1.getD p default) with
            h | h | h
          · exact absurd h hne
          · rw [hCp]
            omega
          · rw [hCp]
            omega
        · exact Rsort j (by omega) hj2
    · have hres : quickSortRange c A lo hi = A := by
        rw [quickSortRange, if_neg hlt]
      rw [hres]
      exact ⟨rfl, List.Perm.refl A, fun k _ => rfl,
        fun P hP k hk1 hk2 => hP k hk1 hk2,
        fun j hj1 hj2 => absurd hj2 (by omega)⟩

/-- Modelled from the spec (§4.5): the in-place quicksort `quick_sort`.
The contract is `quickSortInPlace(xs, compare)`: mutate `xs` directly and
return nothing.  The mutation is modelled by returning the final contents
of the caller's list; the recursion is started on the whole range
`[0, len(xs) - 1]`.  The implementation of `quick_sort` is absent from
`src/sorting.py` (the body at lines 191–219 is only the docstring asking
for the Lomuto scheme), so this definition follows the spec's §4.5. -/
def quick_sort {α : Type} [Inhabited α] (c : α → α → Int) (xs : List α) :
    List α :=
  quickSortRange c xs 0 (xs.length - 1)

/-- Adjacent-pair sortedness stated over positions implies the chain
predicate. -/
theorem chain'_of_getD {α : Type} [Inhabited α] (R : α → α → Prop) :
    ∀ l : List α,
      (∀ j, j + 1 < l.length → R (l.getD j default) (l.getD (j + 1) default)) →
      List.Chain' R l := by
  intro l
  induction l with
  | nil =>
    intro _
    exact List.chain'_nil
  | cons a t ih =>
    intro h
    rw [List.chain'_cons']
    constructor
    · intro y hy
      cases t with
      | nil => simp at hy
      | cons b t2 =>
        simp only [List.head?_cons, Option.mem_def, Option.some.injEq] at hy
        have h0 := h 0 (by simp only [List.length_cons]; omega)
        simp only [List.getD_cons_zero, List.getD_cons_succ] at h0
        rw [← hy]
        exact h0
    · refine ih ?_
      intro j hj
      have hj' := h (j + 1) (by simp only [List.length_cons]; omega)
      simp only [List.getD_cons_succ] at hj'
      exact hj'

/-- C2: for every list `xs` and valid comparator `c`, after
`quick_sort(xs, c)` the contents of `xs` are a permutation of its original
contents, sorted per `c`, with the same length as before the call. -/
theorem c2_quick_sort_sorts {α : Type} [Inhabited α] {c : α → α → Int}
    (hv : ValidCmp c) (xs : List α) :
    (quick_sort c xs).Perm xs ∧
    List.Chain' (fun a b => c a b = -1 ∨ c a b = 0) (quick_sort c xs) ∧
    (quick_sort c xs).length = xs.length := by
  by_cases hnil : xs.length = 0
  · have hxs : xs = [] := List.length_eq_zero.mp hnil
    subst hxs
    have hq : quick_sort c ([] : List α) = [] := by
      rw [quick_sort, quickSortRange, if_neg (by simp)]
    rw [hq]
    exact ⟨List.Perm.refl [], List.chain'_nil, rfl⟩
  · obtain ⟨hlen, hperm, _, _, hsort⟩ :=
      quickSortRange_spec hv (xs.length - 1) xs 0 (xs.length - 1)
        (by omega) (by omega)
    rw [quick_sort]
    refine ⟨hperm, ?_, hlen⟩
    refine (chain'_le_iff_chain'_mem hv _).mp ?_
    refine chain'_of_getD _ _ ?_
    intro j hj
    rw [hlen] at hj
    exact hsort j (Nat.zero_le j) (by omega)

theorem c2_witness :
    (quick_sort cmp_standard ([3, 1, 2] : List ℤ)).Perm [3, 1, 2] ∧
    List.Chain' (fun a b => cmp_standard a b = -1 ∨ cmp_standard a b = 0)
      (quick_sort cmp_standard ([3, 1, 2] : List ℤ)) ∧
    (quick_sort cmp_standard ([3, 1, 2] : List ℤ)).length =
      ([3, 1, 2] : List ℤ).length :=
  c2_quick_sort_sorts cmp_standard_valid [3, 1, 2]

end Sorting
